import Mathlib

/-!
Verification of `check.py`, a build-matrix driver: a recursive `powerset`
enumerator and a `check` routine that invokes an external build tool
(`cargo`) once per feature subset, failing fast on a non-zero exit code.
The definitions below are shallow embeddings of the Python source.
-/

namespace CheckPy

/-! ## The Combination Enumerator (`powerset`, check.py lines 8-19)

Python source:
```
def powerset(input):
    if len(input) == 0:
        return [[]]
    pivot = input[0]
    subset = powerset(input[1:])
    with_pivot = subset.copy()
    for i, set in enumerate(with_pivot):
        with_pivot[i] = [pivot] + set
    return subset + with_pivot
```
The `for`-loop mutates the local copy `with_pivot` in place, index by
index; at iteration `i` only indices `< i` have been replaced, so the
value read at `i` is still the original.  We embed the loop as a fold
over the index range that reads the current cell and overwrites it. -/

def powerset : List String → List (List String)
  | [] => [[]]
  | pivot :: rest =>
    let subset := powerset rest
    let with_pivot :=
      (List.range subset.length).foldl
        (fun wp i => wp.set i (pivot :: wp.getD i [])) subset
    subset ++ with_pivot

/-! ## The Matrix Runner (`check`, check.py lines 22-37)

Python source:
```
async def check(*, toolchain='stable', target=None, features=[], mandatory_features=[]):
    for subset in powerset(features):
        subset = set(subset) | set(mandatory_features)
        args = [f'+{toolchain}', 'check',
                '--no-default-features', '--examples']
        if len(subset) > 0:
            args.append(f'--features={",".join(subset)}')
        if target is not None:
            args.append(f'--target={target}')
        proc = await asyncio.create_subprocess_exec('cargo', *args, stderr=subprocess.PIPE)
        returncode = await proc.wait()
        if returncode != 0:
            raise Exception(f'`cargo {" ".join(args)}` failed\n{proc.stderr}')
```
-/

/-- The outcome of one external build-tool invocation: its exit code and
the bytes the subprocess wrote to the captured standard-error pipe. -/
structure InvocationResult where
  returncode : Int
  stderr : List Nat
  deriving DecidableEq

/-- The line `subset = set(subset) | set(mandatory_features)` (line 24).  A Python
`set` iterates its distinct members in an unspecified, hash-dependent
order; the model fixes one concrete duplicate-free enumeration of the
union (`dedup` of the concatenation).  Every property proved below uses
only membership and duplicate-freedom, which are order-independent. -/
def pySetUnion (a b : List String) : List String := (a ++ b).dedup

/-- Argument-list construction for one subset (lines 26-32). -/
def buildArgs (toolchain : String) (target : Option String)
    (subset : List String) : List String :=
  let args := ["+" ++ toolchain, "check", "--no-default-features", "--examples"]
  let args :=
    if subset.length > 0 then
      args ++ ["--features=" ++ String.intercalate "," subset]
    else args
  match target with
  | some t => args ++ ["--target=" ++ t]
  | none => args

/-- What the f-string `{proc.stderr}` on line 37 inserts: `proc.stderr`
is the `asyncio.StreamReader` object, not the bytes it buffers, and its
string form names the type and at most a count of buffered bytes — never
the captured byte content. -/
def streamReaderRepr (r : InvocationResult) : String :=
  "<StreamReader " ++ toString r.stderr.length ++ " bytes>"

/-- The message of the `Exception` raised on line 37:
`f'`cargo {" ".join(args)}` failed\n{proc.stderr}'`. -/
def errorMessage (args : List String) (r : InvocationResult) : String :=
  "`cargo " ++ String.intercalate " " args ++ "` failed\n" ++ streamReaderRepr r

/-- The subsets the `for` loop on line 23 tests, in order: each powerset
member unioned with the mandatory features. -/
def plannedSubsets (features mandatory : List String) : List (List String) :=
  (powerset features).map (fun s => pySetUnion s mandatory)

/-- The argument lists of the invocations `check` would issue, in order. -/
def plannedArgs (toolchain : String) (target : Option String)
    (features mandatory : List String) : List (List String) :=
  (plannedSubsets features mandatory).map (buildArgs toolchain target)

/-- The body of `check`'s loop (lines 23-37), driven by an environment
`env` that assigns to the `k`-th subprocess started the result the
external tool produces for it.  Returns the trace of argument lists
actually passed to `create_subprocess_exec`, in order, and `some` error
message if an invocation exited non-zero (the `raise` on line 37),
`none` if the loop ran to completion. -/
def runLoop (env : Nat → InvocationResult) :
    Nat → List (List String) → List (List String) × Option String
  | _, [] => ([], none)
  | k, args :: rest =>
    let r := env k
    if r.returncode ≠ 0 then ([args], some (errorMessage args r))
    else
      let next := runLoop env (k + 1) rest
      (args :: next.1, next.2)

/-- One full `check(toolchain=…, target=…, features=…, mandatory_features=…)`
coroutine run. -/
def checkRun (env : Nat → InvocationResult) (toolchain : String)
    (target : Option String) (features mandatory : List String) :
    List (List String) × Option String :=
  runLoop env 0 (plannedArgs toolchain target features mandatory)

/-! ## A heap model of `powerset` for the mutation claim

`powerset` manipulates Python list objects: reading `input[0]`, slicing
`input[1:]` (a fresh list), copying `with_pivot = subset.copy()` (a
fresh list), building `[pivot] + set` (a fresh list), and one in-place
write, `with_pivot[i] = …`.  To settle the no-mutation claim we run the
same steps over an explicit heap of Python objects and show every cell
that existed before the call — in particular the input list — is
untouched. -/

/-- A Python object reachable from `powerset`: a list of strings, or a
list of references to other heap cells. -/
inductive PyObj : Type
  | strList : List String → PyObj
  | refList : List Nat → PyObj

/-- A heap: the next fresh address and the contents of every cell. -/
structure Heap : Type where
  next : Nat
  mem : Nat → PyObj

/-- Allocate a fresh cell holding `o`. -/
def allocH (h : Heap) (o : PyObj) : Heap × Nat :=
  (⟨h.next + 1, fun a => if a = h.next then o else h.mem a⟩, h.next)

/-- Overwrite cell `a` in place. -/
def writeH (h : Heap) (a : Nat) (o : PyObj) : Heap :=
  ⟨h.next, fun b => if b = a then o else h.mem b⟩

/-- Read a string-list cell. -/
def derefStr (h : Heap) (b : Nat) : List String :=
  match h.mem b with
  | PyObj.strList s => s
  | PyObj.refList _ => []

/-- Read a reference-list cell. -/
def derefRefs (h : Heap) (a : Nat) : List Nat :=
  match h.mem a with
  | PyObj.refList rs => rs
  | PyObj.strList _ => []

/-- Read a `powerset` result back from the heap: the outer list of
references, each dereferenced to its string list. -/
def readResult (h : Heap) (a : Nat) : List (List String) :=
  (derefRefs h a).map (derefStr h)

/-- The loop `for i, set in enumerate(with_pivot): with_pivot[i] = [pivot] + set`
on the heap: iteration `i` reads the cell referenced by slot `i` of the
list at `aWP`, allocates the pivot-prepended list (`[pivot] + set`), and
overwrites slot `i` of the list at `aWP` in place.  `n` counts the
remaining iterations. -/
def pivotLoopH (pivot : String) (aWP : Nat) : Nat → Nat → Heap → Heap
  | _, 0, h => h
  | i, n + 1, h =>
    let addrs := derefRefs h aWP
    let s := derefStr h (addrs.getD i 0)
    let p := allocH h (PyObj.strList (pivot :: s))
    let h2 := writeH p.1 aWP (PyObj.refList (addrs.set i p.2))
    pivotLoopH pivot aWP (i + 1) n h2

/-- The non-recursive tail of `powerset`'s body given the recursive
result `sub`: `with_pivot = subset.copy()` (fresh cell), the pivot loop
over it, and `subset + with_pivot` (fresh cell). -/
def powersetStep (pivot : String) (sub : Heap × Nat) : Heap × Nat :=
  let subsetAddrs := derefRefs sub.1 sub.2
  let copy := allocH sub.1 (PyObj.refList subsetAddrs)
  let h4 := pivotLoopH pivot copy.2 0 subsetAddrs.length copy.1
  let res := allocH h4 (PyObj.refList (derefRefs h4 sub.2 ++ derefRefs h4 copy.2))
  (res.1, res.2)

/-- The function `powerset` on the heap.  The empty case allocates `[[]]` (the inner
empty list, then the outer list); the pivot case allocates the slice
`input[1:]`, recurses on it, and runs `powersetStep`. -/
def powersetH : List String → Heap → Heap × Nat
  | [], h =>
    let inner := allocH h (PyObj.strList [])
    let outer := allocH inner.1 (PyObj.refList [inner.2])
    (outer.1, outer.2)
  | pivot :: rest, h =>
    powersetStep pivot (powersetH rest (allocH h (PyObj.strList rest)).1)

/-! ## Lemmas and claim theorems -/

/-- Reading just past a prefix of known length. -/
theorem getD_append_cons {α : Type} :
    ∀ (done : List α) (t : α) (ts : List α) (d : α),
      (done ++ t :: ts).getD done.length d = t := by
  intro done
  induction done with
  | nil => intro t ts d; rfl
  | cons a as ih => intro t ts d; simpa using ih t ts d

/-- Writing just past a prefix of known length. -/
theorem set_append_cons {α : Type} :
    ∀ (done : List α) (t v : α) (ts : List α),
      (done ++ t :: ts).set done.length v = done ++ v :: ts := by
  intro done
  induction done with
  | nil => intro t v ts; rfl
  | cons a as ih => intro t v ts; simp [ih]

/-- The in-place pivot loop, run over the indices of the yet-untouched
suffix `todo`, replaces each remaining cell by the pivot-prepended value
it held before the loop. -/
theorem foldl_pivot (p : String) :
    ∀ (todo done : List (List String)),
      (List.range' done.length todo.length).foldl
          (fun wp i => wp.set i (p :: wp.getD i [])) (done ++ todo)
        = done ++ todo.map (fun s => p :: s) := by
  intro todo
  induction todo with
  | nil => intro done; simp
  | cons t ts ih =>
    intro done
    simp only [List.length_cons]
    rw [List.range'_succ, List.foldl_cons, getD_append_cons, set_append_cons]
    have h1 : done ++ (p :: t) :: ts = (done ++ [p :: t]) ++ ts := by simp
    have h2 : done.length + 1 = (done ++ [p :: t]).length := by simp
    rw [h1, h2, ih (done ++ [p :: t])]
    simp

/-- Unfolding `powerset` at a non-empty input: the recursive result is
followed by its pivot-prepended copy. -/
theorem powerset_cons (pivot : String) (rest : List String) :
    powerset (pivot :: rest)
      = powerset rest ++ (powerset rest).map (fun s => pivot :: s) := by
  show powerset rest ++ (List.range (powerset rest).length).foldl
      (fun wp i => wp.set i (pivot :: wp.getD i [])) (powerset rest)
    = powerset rest ++ (powerset rest).map (fun s => pivot :: s)
  have := foldl_pivot pivot (powerset rest) []
  simpa [List.range_eq_range'] using this

theorem powerset_nil : powerset [] = [[]] := rfl

/-- The function `powerset` computes exactly Mathlib's `List.sublists'`. -/
theorem powerset_eq_sublists' : ∀ l : List String, powerset l = l.sublists' := by
  intro l
  induction l with
  | nil => rfl
  | cons a as ih => rw [powerset_cons, ih, List.sublists'_cons]

/-- If every invocation succeeds, the loop runs through the whole plan
and raises nothing. -/
theorem runLoop_all_zero (env : Nat → InvocationResult) :
    ∀ (pl : List (List String)) (k : Nat),
      (∀ j, j < pl.length → (env (k + j)).returncode = 0) →
      runLoop env k pl = (pl, none) := by
  intro pl
  induction pl with
  | nil => intro k _; rfl
  | cons a rest ih =>
    intro k hz
    have h0 : (env k).returncode = 0 := by simpa using hz 0 (by simp)
    have hrest : runLoop env (k + 1) rest = (rest, none) := by
      refine ih (k + 1) (fun j hj => ?_)
      have := hz (j + 1) (by simpa using Nat.succ_lt_succ hj)
      rwa [show k + (j + 1) = k + 1 + j by omega] at this
    simp [runLoop, h0, hrest]

/-- If the `i`-th invocation is the first to fail, the loop stops right
there: the trace is the first `i + 1` planned invocations and an error
is raised. -/
theorem runLoop_first_fail (env : Nat → InvocationResult) :
    ∀ (pl : List (List String)) (k i : Nat),
      i < pl.length →
      (∀ j, j < i → (env (k + j)).returncode = 0) →
      (env (k + i)).returncode ≠ 0 →
      (runLoop env k pl).1 = pl.take (i + 1) ∧ (runLoop env k pl).2.isSome := by
  intro pl
  induction pl with
  | nil => intro k i hi; exact absurd hi (by simp)
  | cons a rest ih =>
    intro k i hi hz hf
    match i with
    | 0 =>
      have hf0 : (env k).returncode ≠ 0 := hf
      simp [runLoop, hf0]
    | i' + 1 =>
      have h0 : (env k).returncode = 0 := by simpa using hz 0 (by omega)
      have hz' : ∀ j, j < i' → (env (k + 1 + j)).returncode = 0 := by
        intro j hj
        have := hz (j + 1) (by omega)
        rwa [show k + (j + 1) = k + 1 + j by omega] at this
      have hf' : (env (k + 1 + i')).returncode ≠ 0 := by
        rwa [show k + (i' + 1) = k + 1 + i' by omega] at hf
      have := ih (k + 1) i' (by simpa using Nat.lt_of_succ_lt_succ hi) hz' hf'
      simp [runLoop, h0, this.1, this.2]

/-- The trace is always a prefix of the plan, in plan order. -/
theorem runLoop_trace_take (env : Nat → InvocationResult) :
    ∀ (pl : List (List String)) (k : Nat),
      (runLoop env k pl).1 = pl.take (runLoop env k pl).1.length := by
  intro pl
  induction pl with
  | nil => intro k; rfl
  | cons a rest ih =>
    intro k
    by_cases hf : (env k).returncode = 0
    · simp only [runLoop, hf]
      simp only [ne_eq, not_true_eq_false, if_neg, not_false_eq_true]
      simp [List.take_succ_cons, ← ih (k + 1)]
    · simp [runLoop, hf]

/-- The first invocation of a non-empty plan is always issued. -/
theorem runLoop_take_one (env : Nat → InvocationResult)
    (a : List String) (rest : List (List String)) (k : Nat) :
    (runLoop env k (a :: rest)).1.take 1 = [a] := by
  by_cases hf : (env k).returncode = 0 <;> simp [runLoop, hf]

/-- Whether invocation `k₀ + m` is issued, and with which arguments, is a
function of the results of the invocations before it: environments that
agree on the first `m` results yield the same first `m + 1` trace
entries. -/
theorem runLoop_agree (env env' : Nat → InvocationResult) :
    ∀ (pl : List (List String)) (k0 m : Nat),
      (∀ j, j < m → env (k0 + j) = env' (k0 + j)) →
      (runLoop env k0 pl).1.take (m + 1)
        = (runLoop env' k0 pl).1.take (m + 1) := by
  intro pl
  induction pl with
  | nil => intro k0 m _; rfl
  | cons a rest ih =>
    intro k0 m hagree
    match m with
    | 0 => rw [runLoop_take_one, runLoop_take_one]
    | m' + 1 =>
      have h0 : env k0 = env' k0 := by simpa using hagree 0 (by omega)
      by_cases hf : (env k0).returncode = 0
      · have hf' : (env' k0).returncode = 0 := by rw [← h0]; exact hf
        have htail : ∀ j, j < m' → env (k0 + 1 + j) = env' (k0 + 1 + j) := by
          intro j hj
          have := hagree (j + 1) (by omega)
          rwa [show k0 + (j + 1) = k0 + 1 + j by omega] at this
        simp [runLoop, hf, hf', List.take_succ_cons, ih (k0 + 1) m' htail]
      · have hf' : ¬(env' k0).returncode = 0 := by rw [← h0]; exact hf
        simp [runLoop, hf, hf', h0]

/-! ### No other argument is a `--features=`/`--target=` flag -/

theorem plus_ne_features (tc v : String) : "+" ++ tc ≠ "--features=" ++ v := by
  intro h
  have h2 := congrArg String.data h
  rw [String.data_append, String.data_append] at h2
  have h3 : '+' :: tc.data
      = '-' :: '-' :: 'f' :: 'e' :: 'a' :: 't' :: 'u' :: 'r' :: 'e' :: 's' :: '='
        :: v.data := h2
  exact absurd (List.cons.inj h3).1 (by decide)

theorem check_ne_features (v : String) : ("check" : String) ≠ "--features=" ++ v := by
  intro h
  have h2 := congrArg String.data h
  rw [String.data_append] at h2
  have h3 : ['c', 'h', 'e', 'c', 'k']
      = '-' :: '-' :: 'f' :: 'e' :: 'a' :: 't' :: 'u' :: 'r' :: 'e' :: 's' :: '='
        :: v.data := h2
  exact absurd (List.cons.inj h3).1 (by decide)

theorem ndf_ne_features (v : String) :
    ("--no-default-features" : String) ≠ "--features=" ++ v := by
  intro h
  have h2 := congrArg String.data h
  rw [String.data_append] at h2
  have h3 : ['-', '-', 'n', 'o', '-', 'd', 'e', 'f', 'a', 'u', 'l', 't', '-', 'f',
        'e', 'a', 't', 'u', 'r', 'e', 's']
      = '-' :: '-' :: 'f' :: 'e' :: 'a' :: 't' :: 'u' :: 'r' :: 'e' :: 's' :: '='
        :: v.data := h2
  exact absurd (List.cons.inj (List.cons.inj (List.cons.inj h3).2).2).1 (by decide)

theorem examples_ne_features (v : String) :
    ("--examples" : String) ≠ "--features=" ++ v := by
  intro h
  have h2 := congrArg String.data h
  rw [String.data_append] at h2
  have h3 : ['-', '-', 'e', 'x', 'a', 'm', 'p', 'l', 'e', 's']
      = '-' :: '-' :: 'f' :: 'e' :: 'a' :: 't' :: 'u' :: 'r' :: 'e' :: 's' :: '='
        :: v.data := h2
  exact absurd (List.cons.inj (List.cons.inj (List.cons.inj h3).2).2).1 (by decide)

theorem target_ne_features (t v : String) :
    "--target=" ++ t ≠ "--features=" ++ v := by
  intro h
  have h2 := congrArg String.data h
  rw [String.data_append, String.data_append] at h2
  have h3 : '-' :: '-' :: 't' :: 'a' :: 'r' :: 'g' :: 'e' :: 't' :: '=' :: t.data
      = '-' :: '-' :: 'f' :: 'e' :: 'a' :: 't' :: 'u' :: 'r' :: 'e' :: 's' :: '='
        :: v.data := h2
  exact absurd (List.cons.inj (List.cons.inj (List.cons.inj h3).2).2).1 (by decide)

theorem plus_ne_target (tc v : String) : "+" ++ tc ≠ "--target=" ++ v := by
  intro h
  have h2 := congrArg String.data h
  rw [String.data_append, String.data_append] at h2
  have h3 : '+' :: tc.data
      = '-' :: '-' :: 't' :: 'a' :: 'r' :: 'g' :: 'e' :: 't' :: '=' :: v.data := h2
  exact absurd (List.cons.inj h3).1 (by decide)

theorem check_ne_target (v : String) : ("check" : String) ≠ "--target=" ++ v := by
  intro h
  have h2 := congrArg String.data h
  rw [String.data_append] at h2
  have h3 : ['c', 'h', 'e', 'c', 'k']
      = '-' :: '-' :: 't' :: 'a' :: 'r' :: 'g' :: 'e' :: 't' :: '=' :: v.data := h2
  exact absurd (List.cons.inj h3).1 (by decide)

theorem ndf_ne_target (v : String) :
    ("--no-default-features" : String) ≠ "--target=" ++ v := by
  intro h
  have h2 := congrArg String.data h
  rw [String.data_append] at h2
  have h3 : ['-', '-', 'n', 'o', '-', 'd', 'e', 'f', 'a', 'u', 'l', 't', '-', 'f',
        'e', 'a', 't', 'u', 'r', 'e', 's']
      = '-' :: '-' :: 't' :: 'a' :: 'r' :: 'g' :: 'e' :: 't' :: '=' :: v.data := h2
  exact absurd (List.cons.inj (List.cons.inj (List.cons.inj h3).2).2).1 (by decide)

theorem examples_ne_target (v : String) :
    ("--examples" : String) ≠ "--target=" ++ v := by
  intro h
  have h2 := congrArg String.data h
  rw [String.data_append] at h2
  have h3 : ['-', '-', 'e', 'x', 'a', 'm', 'p', 'l', 'e', 's']
      = '-' :: '-' :: 't' :: 'a' :: 'r' :: 'g' :: 'e' :: 't' :: '=' :: v.data := h2
  exact absurd (List.cons.inj (List.cons.inj (List.cons.inj h3).2).2).1 (by decide)

theorem features_ne_target (s v : String) :
    "--features=" ++ s ≠ "--target=" ++ v := by
  intro h
  exact target_ne_features v s h.symm

/-! ### Structure of the built argument list -/

theorem buildArgs_eq (tc : String) (target : Option String) (S : List String) :
    buildArgs tc target S
      = ["+" ++ tc, "check", "--no-default-features", "--examples"]
        ++ (if S.length > 0 then ["--features=" ++ String.intercalate "," S] else [])
        ++ (match target with
            | some t => ["--target=" ++ t]
            | none => []) := by
  cases target <;> by_cases hS : S.length > 0 <;> simp [buildArgs, hS]

theorem mem_pySetUnion {x : String} {a b : List String} :
    x ∈ pySetUnion a b ↔ x ∈ a ∨ x ∈ b := by
  simp [pySetUnion]

theorem pySetUnion_nodup (a b : List String) : (pySetUnion a b).Nodup :=
  List.nodup_dedup _

/-- The argument list holds a `--features=` flag exactly when the tested
subset is non-empty. -/
theorem features_flag_iff (tc : String) (target : Option String) (S : List String) :
    (∃ v, ("--features=" ++ v) ∈ buildArgs tc target S) ↔ S ≠ [] := by
  constructor
  · rintro ⟨v, hv⟩ rfl
    rw [buildArgs_eq] at hv
    cases target with
    | none =>
      simp at hv
      rcases hv with h | h | h | h
      · exact plus_ne_features tc v h.symm
      · exact check_ne_features v h.symm
      · exact ndf_ne_features v h.symm
      · exact examples_ne_features v h.symm
    | some t =>
      simp at hv
      rcases hv with h | h | h | h | h
      · exact plus_ne_features tc v h.symm
      · exact check_ne_features v h.symm
      · exact ndf_ne_features v h.symm
      · exact examples_ne_features v h.symm
      · exact target_ne_features t v h.symm
  · intro hne
    refine ⟨String.intercalate "," S, ?_⟩
    have hlen : S.length > 0 := List.length_pos.mpr hne
    rw [buildArgs_eq, if_pos hlen]
    cases target <;> simp

/-- The argument list holds a `--target=` flag exactly when the
configuration specifies a target. -/
theorem target_flag_iff (tc : String) (target : Option String) (S : List String) :
    (∃ t, ("--target=" ++ t) ∈ buildArgs tc target S) ↔ target ≠ none := by
  constructor
  · rintro ⟨v, hv⟩ hnone
    subst hnone
    rw [buildArgs_eq] at hv
    by_cases hS : S.length > 0
    · simp [hS] at hv
      rcases hv with h | h | h | h | h
      · exact plus_ne_target tc v h.symm
      · exact check_ne_target v h.symm
      · exact ndf_ne_target v h.symm
      · exact examples_ne_target v h.symm
      · exact features_ne_target _ v h.symm
    · simp [hS] at hv
      rcases hv with h | h | h | h
      · exact plus_ne_target tc v h.symm
      · exact check_ne_target v h.symm
      · exact ndf_ne_target v h.symm
      · exact examples_ne_target v h.symm
  · intro hne
    match target with
    | none => exact absurd rfl hne
    | some t =>
      refine ⟨t, ?_⟩
      rw [buildArgs_eq]
      simp

/-! ### Uniqueness of sublists with the same elements -/

/-- Two sublists of a duplicate-free list that hold the same elements
are equal: a subset of a `FeatureSet` has exactly one representative
among `powerset`'s members. -/
theorem eq_of_sublist_of_mem_iff {α : Type} :
    ∀ (xs s t : List α), s.Sublist xs → t.Sublist xs → xs.Nodup →
      (∀ a, a ∈ s ↔ a ∈ t) → s = t := by
  intro xs
  induction xs with
  | nil =>
    intro s t hs ht _ _
    rw [List.sublist_nil.mp hs, List.sublist_nil.mp ht]
  | cons x l ih =>
    intro s t hs ht hnd hmem
    have hx : x ∉ l := (List.nodup_cons.mp hnd).1
    have hl : l.Nodup := (List.nodup_cons.mp hnd).2
    cases hs with
    | cons _ hs' =>
      cases ht with
      | cons _ ht' => exact ih s t hs' ht' hl hmem
      | @cons₂ t₁ _ _ ht' =>
        exact absurd (hs'.subset ((hmem x).mpr (List.mem_cons_self x t₁))) hx
    | @cons₂ s₁ _ _ hs' =>
      cases ht with
      | cons _ ht' =>
        exact absurd (ht'.subset ((hmem x).mp (List.mem_cons_self x s₁))) hx
      | @cons₂ t₁ _ _ ht' =>
        have hxs : x ∉ s₁ := fun hc => hx (hs'.subset hc)
        have hxt : x ∉ t₁ := fun hc => hx (ht'.subset hc)
        have hmem' : ∀ a, a ∈ s₁ ↔ a ∈ t₁ := by
          intro a
          constructor
          · intro ha
            have h1 : a ∈ x :: t₁ := (hmem a).mp (List.mem_cons_of_mem x ha)
            rcases List.mem_cons.mp h1 with h | h
            · exact absurd (h ▸ ha) hxs
            · exact h
          · intro ha
            have h1 : a ∈ x :: s₁ := (hmem a).mpr (List.mem_cons_of_mem x ha)
            rcases List.mem_cons.mp h1 with h | h
            · exact absurd (h ▸ ha) hxt
            · exact h
        rw [ih s₁ t₁ hs' ht' hl hmem']

/-! ## Claim theorems -/

/-- C2: `powerset` follows the pivot rule: `powerset([]) = [[]]`,
`powerset(pivot :: rest)` is `powerset(rest)` followed by `powerset(rest)`
with the pivot prepended to every member, and in particular
`powerset(["a","b"]) = [[], ["b"], ["a"], ["a","b"]]` in exactly that
order. -/
theorem powerset_pivot_rule :
    powerset [] = [[]]
  ∧ (∀ (pivot : String) (rest : List String),
      powerset (pivot :: rest)
        = powerset rest ++ (powerset rest).map (fun s => pivot :: s))
  ∧ powerset ["a", "b"] = [[], ["b"], ["a"], ["a", "b"]] :=
  ⟨rfl, powerset_cons, by decide⟩

/-- C1: on a duplicate-free input of length `N`, `powerset` returns
exactly `2 ^ N` subsets; every subset of the input occurs exactly once
(counting members up to their element sets), and the empty subset and
the full set each occur exactly once. -/
theorem powerset_exact_subsets (xs : List String) (hnd : xs.Nodup) :
    (powerset xs).length = 2 ^ xs.length
  ∧ (∀ t : Finset String, t ⊆ xs.toFinset →
      ((powerset xs).map List.toFinset).count t = 1)
  ∧ ((powerset xs).map List.toFinset).count (∅ : Finset String) = 1
  ∧ ((powerset xs).map List.toFinset).count xs.toFinset = 1 := by
  have hsub : ∀ s : List String, s ∈ powerset xs ↔ s.Sublist xs := by
    intro s; rw [powerset_eq_sublists']; exact List.mem_sublists'
  have hpnd : (powerset xs).Nodup := by
    rw [powerset_eq_sublists']; exact List.nodup_sublists'.mpr hnd
  have hinj : ∀ a ∈ powerset xs, ∀ b ∈ powerset xs,
      a.toFinset = b.toFinset → a = b := by
    intro a ha b hb hab
    refine eq_of_sublist_of_mem_iff xs a b ((hsub a).mp ha) ((hsub b).mp hb) hnd ?_
    intro c
    rw [← List.mem_toFinset, hab, List.mem_toFinset]
  have hmnd : ((powerset xs).map List.toFinset).Nodup :=
    List.Nodup.map_on hinj hpnd
  have hcount : ∀ t : Finset String, t ⊆ xs.toFinset →
      ((powerset xs).map List.toFinset).count t = 1 := by
    intro t ht
    have hm : t ∈ (powerset xs).map List.toFinset := by
      refine List.mem_map.mpr ⟨xs.filter (fun a => a ∈ t), ?_, ?_⟩
      · exact (hsub _).mpr (List.filter_sublist xs)
      · ext c
        simp only [List.mem_toFinset, List.mem_filter, decide_eq_true_eq]
        constructor
        · rintro ⟨-, hc⟩; exact hc
        · intro hc; exact ⟨List.mem_toFinset.mp (ht hc), hc⟩
    exact List.count_eq_one_of_mem hmnd hm
  refine ⟨?_, hcount, ?_, ?_⟩
  · rw [powerset_eq_sublists']; exact List.length_sublists' xs
  · exact hcount ∅ (Finset.empty_subset _)
  · exact hcount xs.toFinset (Finset.Subset.refl _)

/-- Witness for C1 at the concrete input `["a", "b"]`. -/
theorem powerset_exact_subsets_witness :
    (["a", "b"] : List String).Nodup
  ∧ ((powerset ["a", "b"]).length = 2 ^ (["a", "b"] : List String).length
      ∧ (∀ t : Finset String, t ⊆ (["a", "b"] : List String).toFinset →
          ((powerset ["a", "b"]).map List.toFinset).count t = 1)
      ∧ ((powerset ["a", "b"]).map List.toFinset).count (∅ : Finset String) = 1
      ∧ ((powerset ["a", "b"]).map List.toFinset).count
          (["a", "b"] : List String).toFinset = 1) :=
  ⟨by decide, powerset_exact_subsets ["a", "b"] (by decide)⟩

/-- C5: every tested subset — a powerset member unioned with the
mandatory features — contains every mandatory feature, whether or not it
occurs in the declared features list. -/
theorem mandatory_subset_of_tested (features mandatory S : List String)
    (hS : S ∈ plannedSubsets features mandatory) :
    ∀ x ∈ mandatory, x ∈ S := by
  rcases List.mem_map.mp hS with ⟨s, -, rfl⟩
  intro x hx
  exact mem_pySetUnion.mpr (Or.inr hx)

/-- Witness for C5: the mandatory name `"extra"`, absent from the
declared features `["sync"]`, is in the tested subset `["extra"]`. -/
theorem mandatory_subset_of_tested_witness :
    (["extra"] : List String) ∈ plannedSubsets ["sync"] ["extra"]
  ∧ ∀ x ∈ (["extra"] : List String), x ∈ (["extra"] : List String) :=
  ⟨by decide, mandatory_subset_of_tested ["sync"] ["extra"] ["extra"] (by decide)⟩

/-- C6: for every tested subset `S`, the argument list starts with the
toolchain selector, the `check` verb, `--no-default-features` and
`--examples`; it carries a `--features=` flag exactly when `S` is
non-empty, whose value is the comma-joined members of `S`, which are
duplicate-free; and it carries a `--target=` flag exactly when the
configuration specifies a target. -/
theorem buildArgs_shape (tc : String) (target : Option String)
    (features mandatory S : List String)
    (hS : S ∈ plannedSubsets features mandatory) :
    (buildArgs tc target S).take 4
      = ["+" ++ tc, "check", "--no-default-features", "--examples"]
  ∧ buildArgs tc target S
      = ["+" ++ tc, "check", "--no-default-features", "--examples"]
        ++ (if S.length > 0 then ["--features=" ++ String.intercalate "," S] else [])
        ++ (match target with
            | some t => ["--target=" ++ t]
            | none => [])
  ∧ S.Nodup
  ∧ ((∃ v, ("--features=" ++ v) ∈ buildArgs tc target S) ↔ S ≠ [])
  ∧ ((∃ t, ("--target=" ++ t) ∈ buildArgs tc target S) ↔ target ≠ none) := by
  refine ⟨?_, buildArgs_eq tc target S, ?_, features_flag_iff tc target S,
    target_flag_iff tc target S⟩
  · rw [buildArgs_eq]; rfl
  · rcases List.mem_map.mp hS with ⟨s, -, rfl⟩
    exact pySetUnion_nodup s mandatory

/-- Witness for C6 at the subset `{"sync"}` of the hardcoded
configuration with a wasm target. -/
theorem buildArgs_shape_witness :
    (["sync"] : List String) ∈ plannedSubsets ["sync", "alloc"] []
  ∧ ((buildArgs "nightly" (some "wasm32-unknown-unknown") ["sync"]).take 4
      = ["+" ++ "nightly", "check", "--no-default-features", "--examples"]
    ∧ buildArgs "nightly" (some "wasm32-unknown-unknown") ["sync"]
        = ["+" ++ "nightly", "check", "--no-default-features", "--examples"]
          ++ (if (["sync"] : List String).length > 0 then
                ["--features=" ++ String.intercalate "," ["sync"]]
              else [])
          ++ (match (some "wasm32-unknown-unknown" : Option String) with
              | some t => ["--target=" ++ t]
              | none => [])
    ∧ (["sync"] : List String).Nodup
    ∧ ((∃ v, ("--features=" ++ v)
          ∈ buildArgs "nightly" (some "wasm32-unknown-unknown") ["sync"])
        ↔ (["sync"] : List String) ≠ [])
    ∧ ((∃ t, ("--target=" ++ t)
          ∈ buildArgs "nightly" (some "wasm32-unknown-unknown") ["sync"])
        ↔ (some "wasm32-unknown-unknown" : Option String) ≠ none)) :=
  ⟨by decide,
    buildArgs_shape "nightly" (some "wasm32-unknown-unknown")
      ["sync", "alloc"] [] ["sync"] (by decide)⟩

/-- C7: with an empty features list and empty mandatory list, `check`
issues exactly one invocation, whose argument list carries no
`--features=` flag. -/
theorem check_empty_config (env : Nat → InvocationResult) (tc : String)
    (target : Option String) :
    (checkRun env tc target [] []).1 = [buildArgs tc target []]
  ∧ ∀ v, ("--features=" ++ v) ∉ buildArgs tc target [] := by
  constructor
  · have hplan : plannedArgs tc target [] [] = [buildArgs tc target []] := rfl
    rw [checkRun, hplan]
    by_cases hf : (env 0).returncode = 0 <;> simp [runLoop, hf]
  · intro v hv
    exact (features_flag_iff tc target []).mp ⟨v, hv⟩ rfl

/-- Witness for C7 at a concrete environment and configuration. -/
theorem check_empty_config_witness :
    (checkRun (fun _ => InvocationResult.mk 0 []) "stable" none [] []).1
      = [buildArgs "stable" none []]
  ∧ ∀ v, ("--features=" ++ v) ∉ buildArgs "stable" none [] :=
  check_empty_config (fun _ => InvocationResult.mk 0 []) "stable" none

/-- C3: a non-zero exit code makes `check` raise immediately — the trace
stops at the failing subset and no invocation is issued for any later
subset — while an all-zero run walks the whole plan and completes with
no error raised. -/
theorem check_fail_fast (env : Nat → InvocationResult) (tc : String)
    (target : Option String) (features mandatory : List String) :
    (∀ i, i < (plannedArgs tc target features mandatory).length →
      (∀ j, j < i → (env j).returncode = 0) →
      (env i).returncode ≠ 0 →
      (checkRun env tc target features mandatory).1
          = (plannedArgs tc target features mandatory).take (i + 1)
        ∧ (checkRun env tc target features mandatory).2.isSome)
  ∧ ((∀ j, j < (plannedArgs tc target features mandatory).length →
        (env j).returncode = 0) →
      checkRun env tc target features mandatory
        = (plannedArgs tc target features mandatory, none)) := by
  constructor
  · intro i hi hz hfI
    exact runLoop_first_fail env (plannedArgs tc target features mandatory) 0 i hi
      (fun j hj => by simpa using hz j hj) (by simpa using hfI)
  · intro hz
    exact runLoop_all_zero env _ 0 (fun j hj => by simpa using hz j hj)

/-- Witness for C3: with the hardcoded features `["sync","alloc"]`,
subset #2 of 4 failing stops the run after two invocations. -/
theorem check_fail_fast_witness :
    (1 < (plannedArgs "stable" none ["sync", "alloc"] []).length
      ∧ (∀ j, j < 1 →
          ((fun j => if j = 0 then InvocationResult.mk 0 []
            else InvocationResult.mk 1 []) j).returncode = 0)
      ∧ ((fun j => if j = 0 then InvocationResult.mk 0 []
          else InvocationResult.mk 1 []) 1).returncode ≠ 0)
  ∧ ((checkRun (fun j => if j = 0 then InvocationResult.mk 0 []
        else InvocationResult.mk 1 []) "stable" none ["sync", "alloc"] []).1
        = (plannedArgs "stable" none ["sync", "alloc"] []).take 2
      ∧ (checkRun (fun j => if j = 0 then InvocationResult.mk 0 []
          else InvocationResult.mk 1 []) "stable" none
          ["sync", "alloc"] []).2.isSome) :=
  ⟨⟨by decide, by decide, by decide⟩,
    (check_fail_fast (fun j => if j = 0 then InvocationResult.mk 0 []
        else InvocationResult.mk 1 []) "stable" none ["sync", "alloc"] []).1
      1 (by decide) (by decide) (by decide)⟩

/-- C9: within one `check` run the invocations are issued strictly
sequentially in powerset enumeration order — the trace is always a
prefix of the plan — and whether invocation `k` is started is a function
of the results of the completed invocations before it: environments
agreeing on results `0..k-1` produce the same first `k + 1` trace
entries. -/
theorem check_sequential (env : Nat → InvocationResult) (tc : String)
    (target : Option String) (features mandatory : List String) :
    (checkRun env tc target features mandatory).1
      = (plannedArgs tc target features mandatory).take
          (checkRun env tc target features mandatory).1.length
  ∧ ∀ (env' : Nat → InvocationResult) (k : Nat),
      (∀ j, j < k → env j = env' j) →
      (checkRun env tc target features mandatory).1.take (k + 1)
        = (checkRun env' tc target features mandatory).1.take (k + 1) := by
  constructor
  · exact runLoop_trace_take env _ 0
  · intro env' k hagree
    exact runLoop_agree env env' _ 0 k (fun j hj => by simpa using hagree j hj)

/-- Witness for C9: two environments that agree on the first result
issue the same first two invocations. -/
theorem check_sequential_witness :
    (∀ j, j < 1 →
      (fun _ => InvocationResult.mk 0 []) j
        = (fun j => if j < 1 then InvocationResult.mk 0 []
            else InvocationResult.mk 1 []) j)
  ∧ (checkRun (fun _ => InvocationResult.mk 0 []) "stable" none
        ["sync", "alloc"] []).1.take 2
      = (checkRun (fun j => if j < 1 then InvocationResult.mk 0 []
          else InvocationResult.mk 1 []) "stable" none
          ["sync", "alloc"] []).1.take 2 :=
  ⟨by decide,
    (check_sequential (fun _ => InvocationResult.mk 0 []) "stable" none
        ["sync", "alloc"] []).2
      (fun j => if j < 1 then InvocationResult.mk 0 []
        else InvocationResult.mk 1 []) 1 (by decide)⟩

/-- C10: when no invocation fails, `check` walks the whole plan: exactly
`2 ^ N` invocations for `N` declared features, one per powerset member,
with no deduplication — powerset members whose unions with the mandatory
features coincide are still invoked separately. -/
theorem check_counts (env : Nat → InvocationResult) (tc : String)
    (target : Option String) (features mandatory : List String)
    (hz : ∀ j, j < 2 ^ features.length → (env j).returncode = 0) :
    checkRun env tc target features mandatory
      = (plannedArgs tc target features mandatory, none)
  ∧ (checkRun env tc target features mandatory).1.length
      = 2 ^ features.length := by
  have hlen : (plannedArgs tc target features mandatory).length
      = 2 ^ features.length := by
    simp only [plannedArgs, plannedSubsets, List.length_map]
    rw [powerset_eq_sublists']
    exact List.length_sublists' features
  have hall : checkRun env tc target features mandatory
      = (plannedArgs tc target features mandatory, none) :=
    runLoop_all_zero env _ 0 (fun j hj => by
      simpa using hz j (hlen ▸ hj))
  exact ⟨hall, by rw [hall, hlen]⟩

/-- Witness for C10: `features = ["a"]`, `mandatory = ["a"]` — both
powerset members union to the same set `{"a"}`, and the run still issues
`2 ^ 1 = 2` invocations, with identical argument lists. -/
theorem check_counts_witness :
    (∀ j, j < 2 ^ (["a"] : List String).length →
      ((fun _ => InvocationResult.mk 0 []) j).returncode = 0)
  ∧ (checkRun (fun _ => InvocationResult.mk 0 []) "stable" none ["a"] ["a"]
        = (plannedArgs "stable" none ["a"] ["a"], none)
      ∧ (checkRun (fun _ => InvocationResult.mk 0 []) "stable" none
          ["a"] ["a"]).1.length = 2 ^ (["a"] : List String).length)
  ∧ (checkRun (fun _ => InvocationResult.mk 0 []) "stable" none ["a"] ["a"]).1
      = [buildArgs "stable" none ["a"], buildArgs "stable" none ["a"]] :=
  ⟨by decide,
    check_counts (fun _ => InvocationResult.mk 0 []) "stable" none
      ["a"] ["a"] (by decide),
    by decide⟩

/-- C4 evidence: the raised error does not carry the captured
standard-error bytes.  Line 37 interpolates `proc.stderr` — the
`asyncio.StreamReader` object, whose string form never includes the
buffered content — so two failing runs whose subprocesses write
different stderr bytes (`b"boom"` vs `b"beep"`) raise the identical
error, and at the failing input the message is the argument list plus
the stream object's repr, with no trace of the bytes. -/
theorem check_error_drops_stderr :
    checkRun (fun _ => InvocationResult.mk 1 [98, 111, 111, 109])
        "stable" none [] []
      = checkRun (fun _ => InvocationResult.mk 1 [98, 101, 101, 112])
          "stable" none [] []
  ∧ (checkRun (fun _ => InvocationResult.mk 1 [98, 111, 111, 109])
        "stable" none [] []).2
      = some ("`cargo +stable check --no-default-features --examples` failed\n"
          ++ "<StreamReader 4 bytes>")
  ∧ (InvocationResult.mk (1 : Int) ([98, 111, 111, 109] : List Nat)).stderr
      ≠ (InvocationResult.mk (1 : Int) ([98, 101, 101, 112] : List Nat)).stderr := by
  refine ⟨by decide, by decide, by decide⟩

theorem allocH_addr (h : Heap) (o : PyObj) : (allocH h o).2 = h.next := rfl

theorem allocH_mem_self (h : Heap) (o : PyObj) :
    (allocH h o).1.mem h.next = o := by simp [allocH]

theorem allocH_mem_lt (h : Heap) (o : PyObj) {a : Nat} (ha : a ≠ h.next) :
    (allocH h o).1.mem a = h.mem a := by simp [allocH, ha]

theorem writeH_mem_self (h : Heap) (a : Nat) (o : PyObj) :
    (writeH h a o).mem a = o := by simp [writeH]

theorem writeH_mem_ne (h : Heap) (a : Nat) (o : PyObj) {b : Nat} (hb : b ≠ a) :
    (writeH h a o).mem b = h.mem b := by simp [writeH, hb]

theorem derefRefs_eq {h : Heap} {a : Nat} {rs : List Nat}
    (hm : h.mem a = PyObj.refList rs) : derefRefs h a = rs := by
  simp [derefRefs, hm]

theorem derefStr_eq {h : Heap} {b : Nat} {s : List String}
    (hm : h.mem b = PyObj.strList s) : derefStr h b = s := by
  simp [derefStr, hm]

theorem derefRefs_congr {h h' : Heap} {a : Nat} (hm : h.mem a = h'.mem a) :
    derefRefs h a = derefRefs h' a := by simp [derefRefs, hm]

theorem derefStr_congr {h h' : Heap} {b : Nat} (hm : h.mem b = h'.mem b) :
    derefStr h b = derefStr h' b := by simp [derefStr, hm]

/-- Frame and result of the in-place pivot loop: it only ever writes the
copy at `aWP` and fresh cells, so every other pre-existing cell is
unchanged; the slots it has processed end up referencing fresh cells
holding the pivot-prepended lists. -/
theorem pivotLoopH_spec (pivot : String) (aWP : Nat) :
    ∀ (todo done : List Nat) (h : Heap),
      h.mem aWP = PyObj.refList (done ++ todo) →
      aWP < h.next →
      (∀ b ∈ todo, b < h.next ∧ b ≠ aWP) →
      ∃ newAddrs : List Nat,
        h.next ≤ (pivotLoopH pivot aWP done.length todo.length h).next
        ∧ (∀ c, c ≠ aWP → c < h.next →
            (pivotLoopH pivot aWP done.length todo.length h).mem c = h.mem c)
        ∧ (pivotLoopH pivot aWP done.length todo.length h).mem aWP
            = PyObj.refList (done ++ newAddrs)
        ∧ newAddrs.map (derefStr (pivotLoopH pivot aWP done.length todo.length h))
            = todo.map (fun b => pivot :: derefStr h b)
        ∧ ∀ c ∈ newAddrs,
            h.next ≤ c ∧ c < (pivotLoopH pivot aWP done.length todo.length h).next := by
  intro todo
  induction todo with
  | nil =>
    intro done h hmem _ _
    exact ⟨[], le_refl _, fun c _ _ => rfl, by simpa using hmem, rfl, by simp⟩
  | cons b bs ih =>
    intro done h hmem haWP hball
    have hblt : b < h.next ∧ b ≠ aWP := hball b (List.mem_cons_self b bs)
    have hstep : pivotLoopH pivot aWP done.length (b :: bs).length h
        = pivotLoopH pivot aWP (done.length + 1) bs.length
            (writeH (allocH h (PyObj.strList
                (pivot :: derefStr h ((derefRefs h aWP).getD done.length 0)))).1 aWP
              (PyObj.refList ((derefRefs h aWP).set done.length
                (allocH h (PyObj.strList
                  (pivot :: derefStr h
                    ((derefRefs h aWP).getD done.length 0)))).2))) := rfl
    have haddrs : derefRefs h aWP = done ++ b :: bs := derefRefs_eq hmem
    rw [haddrs, getD_append_cons, allocH_addr, set_append_cons] at hstep
    set H2 : Heap := writeH (allocH h (PyObj.strList (pivot :: derefStr h b))).1 aWP
      (PyObj.refList (done ++ h.next :: bs)) with hH2
    have hn2 : H2.next = h.next + 1 := by rw [hH2]; rfl
    have hmem2 : H2.mem aWP = PyObj.refList ((done ++ [h.next]) ++ bs) := by
      rw [hH2, writeH_mem_self, List.append_cons]
    have haWP2 : aWP < H2.next := by omega
    have hball2 : ∀ c ∈ bs, c < H2.next ∧ c ≠ aWP := by
      intro c hc
      have := hball c (List.mem_cons_of_mem b hc)
      exact ⟨by omega, this.2⟩
    obtain ⟨NA, j1, j2, j3, j4, j5⟩ := ih (done ++ [h.next]) H2 hmem2 haWP2 hball2
    simp only [List.length_append, List.length_cons, List.length_nil,
      Nat.zero_add] at j1 j2 j3 j4 j5
    rw [hstep]
    refine ⟨h.next :: NA, by omega, ?_, ?_, ?_, ?_⟩
    · intro c hcW hcN
      rw [j2 c hcW (by omega)]
      rw [hH2, writeH_mem_ne _ _ _ hcW]
      exact allocH_mem_lt _ _ (by omega)
    · rw [List.append_cons]
      exact j3
    · have hmemNew : (pivotLoopH pivot aWP (done.length + 1) bs.length H2).mem h.next
          = PyObj.strList (pivot :: derefStr h b) := by
        rw [j2 h.next (by omega) (by omega)]
        rw [hH2, writeH_mem_ne _ _ _ (by omega)]
        exact allocH_mem_self _ _
      have hhead : derefStr (pivotLoopH pivot aWP (done.length + 1) bs.length H2) h.next
          = pivot :: derefStr h b := derefStr_eq hmemNew
      have htail : bs.map (fun c => pivot :: derefStr H2 c)
          = bs.map (fun c => pivot :: derefStr h c) := by
        refine List.map_congr_left (fun c hc => ?_)
        have hcc := hball c (List.mem_cons_of_mem b hc)
        have hcc1 := hcc.1
        have hmc : H2.mem c = h.mem c := by
          rw [hH2, writeH_mem_ne _ _ _ hcc.2]
          exact allocH_mem_lt _ _ (by omega)
        rw [derefStr_congr hmc]
      simp only [List.map_cons]
      rw [hhead, j4, htail]
    · intro c hc
      rcases List.mem_cons.mp hc with rfl | hc'
      · exact ⟨le_refl _, by omega⟩
      · have := j5 c hc'
        exact ⟨by omega, this.2⟩

/-- Frame and result of `powersetStep`: given a well-formed recursive
result (its reference cell below the frontier, all inner references
below it), the step preserves every pre-existing cell and reads back as
the concatenation of the recursive result with its pivot-prepended
copy. -/
theorem powersetStep_spec (pivot : String) (sub : Heap × Nat)
    (h3 : sub.2 < sub.1.next)
    (h5 : ∀ c ∈ derefRefs sub.1 sub.2, c < sub.2) :
    sub.1.next ≤ (powersetStep pivot sub).1.next
  ∧ (∀ b, b < sub.1.next → (powersetStep pivot sub).1.mem b = sub.1.mem b)
  ∧ (powersetStep pivot sub).2 < (powersetStep pivot sub).1.next
  ∧ readResult (powersetStep pivot sub).1 (powersetStep pivot sub).2
      = readResult sub.1 sub.2 ++ (readResult sub.1 sub.2).map (fun s => pivot :: s)
  ∧ (∀ c ∈ derefRefs (powersetStep pivot sub).1 (powersetStep pivot sub).2,
      c < (powersetStep pivot sub).2) := by
  have hcopy : (allocH sub.1 (PyObj.refList (derefRefs sub.1 sub.2))).1.mem sub.1.next
      = PyObj.refList ([] ++ derefRefs sub.1 sub.2) := allocH_mem_self _ _
  obtain ⟨NA, l1, l2, l3, l4, l5⟩ :=
    pivotLoopH_spec pivot sub.1.next (derefRefs sub.1 sub.2) []
      (allocH sub.1 (PyObj.refList (derefRefs sub.1 sub.2))).1 hcopy
      (show sub.1.next < sub.1.next + 1 by omega)
      (fun b hb => by
        have hlt := lt_trans (h5 b hb) h3
        exact ⟨show b < sub.1.next + 1 by omega, by omega⟩)
  simp only [List.length_nil, List.nil_append] at l1 l2 l3 l4 l5
  have e1 : (powersetStep pivot sub).1
      = (allocH
            (pivotLoopH pivot sub.1.next 0 (derefRefs sub.1 sub.2).length
              (allocH sub.1 (PyObj.refList (derefRefs sub.1 sub.2))).1)
            (PyObj.refList
              (derefRefs (pivotLoopH pivot sub.1.next 0 (derefRefs sub.1 sub.2).length
                  (allocH sub.1 (PyObj.refList (derefRefs sub.1 sub.2))).1) sub.2
                ++ derefRefs (pivotLoopH pivot sub.1.next 0 (derefRefs sub.1 sub.2).length
                  (allocH sub.1 (PyObj.refList (derefRefs sub.1 sub.2))).1)
                  sub.1.next))).1 := rfl
  have e2 : (powersetStep pivot sub).2
      = (pivotLoopH pivot sub.1.next 0 (derefRefs sub.1 sub.2).length
          (allocH sub.1 (PyObj.refList (derefRefs sub.1 sub.2))).1).next := rfl
  rw [e1, e2]
  set L : Heap := pivotLoopH pivot sub.1.next 0 (derefRefs sub.1 sub.2).length
    (allocH sub.1 (PyObj.refList (derefRefs sub.1 sub.2))).1 with hL
  have l1' : sub.1.next + 1 ≤ L.next := l1
  have hmemSub : L.mem sub.2 = sub.1.mem sub.2 := by
    rw [l2 sub.2 (by omega) (show sub.2 < sub.1.next + 1 by omega)]
    exact allocH_mem_lt _ _ (by omega)
  have hRefsSub : derefRefs L sub.2 = derefRefs sub.1 sub.2 := derefRefs_congr hmemSub
  have hRefsNA : derefRefs L sub.1.next = NA := derefRefs_eq l3
  have hm5 : (allocH L
        (PyObj.refList (derefRefs L sub.2 ++ derefRefs L sub.1.next))).1.mem L.next
      = PyObj.refList (derefRefs L sub.2 ++ derefRefs L sub.1.next) :=
    allocH_mem_self _ _
  have hRefsF : derefRefs (allocH L
        (PyObj.refList (derefRefs L sub.2 ++ derefRefs L sub.1.next))).1 L.next
      = derefRefs L sub.2 ++ derefRefs L sub.1.next := derefRefs_eq hm5
  have hfn : (allocH L
        (PyObj.refList (derefRefs L sub.2 ++ derefRefs L sub.1.next))).1.next
      = L.next + 1 := rfl
  refine ⟨by omega, ?_, by omega, ?_, ?_⟩
  · intro b hb
    rw [allocH_mem_lt _ _ (show b ≠ L.next by omega)]
    rw [l2 b (by omega) (show b < sub.1.next + 1 by omega)]
    exact allocH_mem_lt _ _ (by omega)
  · show (derefRefs (allocH L
          (PyObj.refList (derefRefs L sub.2 ++ derefRefs L sub.1.next))).1 L.next).map
        (derefStr (allocH L
          (PyObj.refList (derefRefs L sub.2 ++ derefRefs L sub.1.next))).1)
      = readResult sub.1 sub.2 ++ (readResult sub.1 sub.2).map (fun s => pivot :: s)
    rw [hRefsF, hRefsSub, hRefsNA, List.map_append]
    have hmapSub : (derefRefs sub.1 sub.2).map
          (derefStr (allocH L
            (PyObj.refList (derefRefs sub.1 sub.2 ++ NA))).1)
        = (derefRefs sub.1 sub.2).map (derefStr sub.1) := by
      refine List.map_congr_left (fun c hc => ?_)
      have hcl : c < sub.2 := h5 c hc
      refine derefStr_congr ?_
      rw [allocH_mem_lt _ _ (show c ≠ L.next by omega)]
      rw [l2 c (by omega) (show c < sub.1.next + 1 by omega)]
      exact allocH_mem_lt _ _ (by omega)
    have hmapNA : NA.map
          (derefStr (allocH L
            (PyObj.refList (derefRefs sub.1 sub.2 ++ NA))).1)
        = NA.map (derefStr L) := by
      refine List.map_congr_left (fun c hc => ?_)
      have := l5 c hc
      exact derefStr_congr (allocH_mem_lt _ _ (show c ≠ L.next by omega))
    have hmapNA2 : NA.map (derefStr L)
        = ((derefRefs sub.1 sub.2).map (derefStr sub.1)).map (fun s => pivot :: s) := by
      rw [l4, List.map_map]
      refine List.map_congr_left (fun c hc => ?_)
      have hcl : c < sub.2 := h5 c hc
      have hds : derefStr (allocH sub.1 (PyObj.refList (derefRefs sub.1 sub.2))).1 c
          = derefStr sub.1 c :=
        derefStr_congr (allocH_mem_lt _ _ (by omega))
      simp [hds, Function.comp]
    rw [hmapSub, hmapNA, hmapNA2]
    rfl
  · intro c hc
    rw [hRefsF, hRefsSub, hRefsNA] at hc
    rcases List.mem_append.mp hc with hc' | hc'
    · have := h5 c hc'
      omega
    · exact (l5 c hc').2

/-- Full frame-and-result of the heap run of `powerset`: the frontier
grows, every pre-existing cell is unchanged, the result cell sits below
the new frontier with its inner references below it, and the result
reads back as the pure `powerset` of the input value (for any heap). -/
theorem powersetH_spec : ∀ (l : List String) (h : Heap),
    h.next ≤ (powersetH l h).1.next
  ∧ (∀ b, b < h.next → (powersetH l h).1.mem b = h.mem b)
  ∧ (powersetH l h).2 < (powersetH l h).1.next
  ∧ readResult (powersetH l h).1 (powersetH l h).2 = powerset l
  ∧ (∀ c ∈ derefRefs (powersetH l h).1 (powersetH l h).2,
      c < (powersetH l h).2) := by
  intro l
  induction l with
  | nil =>
    intro h
    have e0 : powersetH [] h
        = ((allocH (allocH h (PyObj.strList [])).1 (PyObj.refList [h.next])).1,
           h.next + 1) := rfl
    rw [e0]
    have hmOut : (allocH (allocH h (PyObj.strList [])).1
          (PyObj.refList [h.next])).1.mem (h.next + 1) = PyObj.refList [h.next] :=
      allocH_mem_self _ _
    have hmIn : (allocH (allocH h (PyObj.strList [])).1
          (PyObj.refList [h.next])).1.mem h.next = PyObj.strList [] := by
      rw [allocH_mem_lt _ _ (show h.next ≠ h.next + 1 by omega)]
      exact allocH_mem_self _ _
    refine ⟨show h.next ≤ h.next + 1 + 1 by omega, ?_,
      show h.next + 1 < h.next + 1 + 1 by omega, ?_, ?_⟩
    · intro b hb
      rw [allocH_mem_lt _ _ (show b ≠ h.next + 1 by omega)]
      exact allocH_mem_lt _ _ (show b ≠ h.next by omega)
    · show (derefRefs (allocH (allocH h (PyObj.strList [])).1
            (PyObj.refList [h.next])).1 (h.next + 1)).map
          (derefStr (allocH (allocH h (PyObj.strList [])).1
            (PyObj.refList [h.next])).1) = powerset []
      rw [derefRefs_eq hmOut]
      simp [derefStr_eq hmIn, powerset]
    · intro c hc
      rw [derefRefs_eq hmOut] at hc
      have : c = h.next := by simpa using hc
      omega
  | cons pivot rest ih =>
    intro h
    have estep : powersetH (pivot :: rest) h
        = powersetStep pivot (powersetH rest (allocH h (PyObj.strList rest)).1) := rfl
    obtain ⟨i1, i2, i3, i4, i5⟩ := ih (allocH h (PyObj.strList rest)).1
    obtain ⟨s1, s2, s3, s4, s5⟩ :=
      powersetStep_spec pivot (powersetH rest (allocH h (PyObj.strList rest)).1) i3 i5
    rw [estep]
    have i1' : h.next + 1 ≤ (powersetH rest (allocH h (PyObj.strList rest)).1).1.next :=
      i1
    refine ⟨by omega, ?_, s3, ?_, s5⟩
    · intro b hb
      rw [s2 b (by omega)]
      rw [i2 b (show b < h.next + 1 by omega)]
      exact allocH_mem_lt _ _ (show b ≠ h.next by omega)
    · rw [s4, i4, powerset_cons]

/-- C8: `powerset` does not mutate its input.  In the heap model of the
Python objects, a run of `powersetH` leaves every pre-existing heap cell
— in particular the cell holding the input sequence — unchanged (its
only in-place write targets the fresh copy `with_pivot`), and the result
read back from the heap equals the pure `powerset` of the input value
whatever the starting heap, so calling it twice on the same input yields
structurally identical output. -/
theorem powerset_no_mutation (l : List String) (h : Heap) (a : Nat)
    (ha : a < h.next) :
    (powersetH l h).1.mem a = h.mem a
  ∧ readResult (powersetH l h).1 (powersetH l h).2 = powerset l :=
  ⟨(powersetH_spec l h).2.1 a ha, (powersetH_spec l h).2.2.2.1⟩

/-- Witness for C8: a one-cell heap holding the input list `["a"]`. -/
theorem powerset_no_mutation_witness :
    0 < (Heap.mk 1 (fun _ => PyObj.strList ["a"])).next
  ∧ ((powersetH ["a"] (Heap.mk 1 (fun _ => PyObj.strList ["a"]))).1.mem 0
        = (Heap.mk 1 (fun _ => PyObj.strList ["a"])).mem 0
      ∧ readResult (powersetH ["a"] (Heap.mk 1 (fun _ => PyObj.strList ["a"]))).1
          (powersetH ["a"] (Heap.mk 1 (fun _ => PyObj.strList ["a"]))).2
        = powerset ["a"]) :=
  ⟨Nat.zero_lt_one,
    powerset_no_mutation ["a"] (Heap.mk 1 (fun _ => PyObj.strList ["a"])) 0
      Nat.zero_lt_one⟩

end CheckPy
